import Mathlib

/-!
Verification of the BMP decoding core of tools/bmp2tiff.c (libtiff).

The file shallowly embeds the pieces of main() that the claims are about:

* the palette entry-width computation (variable n_clr_elems, lines 222-357),
* the row-stride computation (variable size, line 474),
* the uncompressed row extraction (lines 477-494),
* the RLE8 decompression loop (lines 529-561),
* the RLE4 decompression loop (lines 564-601),
* the scanline emission of the RLE path (lines 606-613),
* the compression dispatch (lines 470 and 512, with no else branch).

All C uint32 quantities are modelled as Nat; `% 4294967296` is written out at
the spots where 32-bit wrap-around can actually occur.  Buffers are Lists of
Nat (each element one byte, values 0..255 in any real run).  The decompressor
state additionally carries a `written` flag per output cell so that theorems
can speak about cells the loop never stored to; the flags are set exactly at
the C stores `uncomprbuf[j++] = ...` and influence nothing else.
-/

namespace Bmp2Tiff

/-- Header variants, enum BMPType (lines 45-51 of bmp2tiff.c). -/
inductive BMPType where
  | win4
  | win5
  | os21
  | os22
deriving DecidableEq

/-- Number of bytes per colour-table entry.  The source initialises
n_clr_elems to 3 (line 222), sets it to 4 in the branch taken for the
WIN4/WIN5/OS22 header layouts (line 321), then overrides it back to 3 for
OS22 (line 329, under a FIXME comment) and sets 3 in the OS21 branch
(line 356).  The sequential assignments are modelled as shadowing lets. -/
def n_clr_elems (t : BMPType) : Nat :=
  let v := 3
  let v := if t = BMPType.win4 ∨ t = BMPType.win5 ∨ t = BMPType.os22 then 4 else v
  let v := if t = BMPType.os22 then 3 else v
  let v := if t = BMPType.os21 then 3 else v
  v

/-- Row stride in bytes, line 474:
`size = ((width * info_hdr.iBitCount + 31) & ~31) / 8;`
computed in uint32 arithmetic; `~31` as a 32-bit mask is 4294967264. -/
def size (width iBitCount : Nat) : Nat :=
  (((width * iBitCount + 31) % 4294967296) &&& 4294967264) / 8

/-- File offset the uncompressed path reads row `row` from, lines 478-481:
bottom-up storage (iHeight > 0) seeks to
`file_hdr.iOffBits + (length - row - 1) * size`, top-down storage to
`file_hdr.iOffBits + row * size`; the additions are uint32. -/
def uncompressedRowOffset (iOffBits : Nat) (iHeight : Int) (length sz row : Nat) : Nat :=
  if 0 < iHeight then (iOffBits + (length - row - 1) * sz) % 4294967296
  else (iOffBits + row * sz) % 4294967296

/-- Bytes delivered for row `row` of the uncompressed path: line 489 does
`fread(scanbuf, size, 1, in)` after the seek, i.e. it takes `size` bytes of
the file starting at the computed offset. -/
def uncompressedRowBytes (file : List Nat) (iOffBits : Nat) (iHeight : Int)
    (length sz row : Nat) : List Nat :=
  (file.drop (uncompressedRowOffset iOffBits iHeight length sz row)).take sz

/-- Which pixel path the compression dispatch of main selects:
line 470 `if (info_hdr.iCompression == BMPC_RGB)` decodes uncompressed data,
line 512 `else if (iCompression == BMPC_RLE8 || iCompression == BMPC_RLE4)`
runs the RLE decompressor; there is no final else, so every other
compression value falls through to the cleanup code with no pixel work and
no message (BMPC_RGB = 0, BMPC_RLE8 = 1, BMPC_RLE4 = 2). -/
inductive PixelPathAction where
  | decodeUncompressed
  | decodeRLE
  | silentSkip
deriving DecidableEq

/-- The dispatch itself (lines 470 and 512). -/
def compressionDispatch (iCompression : Nat) : PixelPathAction :=
  if iCompression = 0 then PixelPathAction.decodeUncompressed
  else if iCompression = 1 ∨ iCompression = 2 then PixelPathAction.decodeRLE
  else PixelPathAction.silentSkip

/-- Scanlines handed to TIFFWriteScanline by each action: the uncompressed
loop (lines 477-504) and the RLE emission loop (lines 606-613) each call it
once per row in 0..length-1; the fall-through case calls it never. -/
def dispatchScanlines (a : PixelPathAction) (length : Nat) : Nat :=
  match a with
  | PixelPathAction.silentSkip => 0
  | _ => length

set_option linter.unusedVariables false in
/-- Scanline the RLE path emits for display row `row`, line 607:
`TIFFWriteScanline(out, uncomprbuf + (length - row - 1) * width, row, 0)`.
The expression does not consult info_hdr.iHeight, although iHeight is in
scope there; the parameter is kept to state that independence. -/
def rleEmittedRow (iHeight : Int) (uncomprbuf : List Nat) (length width row : Nat) :
    List Nat :=
  (uncomprbuf.drop ((length - row - 1) * width)).take width

/-! ## The RLE decompressor state machine -/

/-- Decompressor state: `i` is the compressed-buffer cursor, `j` the output
cursor, `uncomprbuf` the output index buffer, `written` the instrumentation
flags (true at positions the loop has stored to). -/
structure RLEState where
  i : Nat
  j : Nat
  uncomprbuf : List Nat
  written : List Bool
deriving DecidableEq

/-- How a decompression loop ended. -/
inductive RLEExit where
  /-- the while condition `j < uncompr_size && i < compr_size` failed -/
  | bufferEnd
  /-- escape (0,1), line 543/579: `break` -/
  | endOfImage
  /-- escape (0,2) with fewer than two delta bytes left, line 551/587: `break` -/
  | deltaTrunc
  /-- the source read comprbuf[i] with i = compr_size (line 541/577 after
  `i++`): an out-of-bounds read, undefined behaviour, modelled as an exit -/
  | oobRead
  /-- fuel exhausted; proved unreachable for the fuel used by the model -/
  | fuelOut
deriving DecidableEq

/-- One C store `uncomprbuf[j++] = v`.  Every such store in the source is
dominated by a `j < uncompr_size` test, so `List.set` never silently
truncates in reachable states. -/
def store (s : RLEState) (v : Nat) : RLEState :=
  ⟨s.i, s.j + 1, s.uncomprbuf.set s.j v, s.written.set s.j true⟩

/-- One C increment `i++`. -/
def incI (s : RLEState) : RLEState :=
  ⟨s.i + 1, s.j, s.uncomprbuf, s.written⟩

/-- RLE8 encoded-run inner loop, lines 532-537:
`while (runlength > 0 && j < uncompr_size && i < compr_size)
   { uncomprbuf[j++] = comprbuf[i]; runlength--; }`
`i` is fixed throughout, so the repeated read `comprbuf[i]` is passed in as
`v` (it is performed only under the loop's own `i < compr_size` test). -/
def rle8Fill (csize u v : Nat) : Nat → RLEState → RLEState
  | 0, s => s
  | n + 1, s =>
      if s.j < u ∧ s.i < csize then rle8Fill csize u v n (store s v)
      else s

/-- Nibble selected by the RLE4 encoded-run loop when the remaining count is
`rl`: lines 568-571 test `runlength & 0x01` and take the high nibble of the
run byte when odd, the low nibble when even. -/
def nib4 (b1 rl : Nat) : Nat :=
  if rl &&& 1 ≠ 0 then (b1 &&& 240) >>> 4 else b1 &&& 15

/-- RLE4 encoded-run inner loop, lines 567-573; as in `rle8Fill` the cursor
`i` never moves, only the nibble choice alternates with `runlength`. -/
def rle4Fill (csize u b1 : Nat) : Nat → RLEState → RLEState
  | 0, s => s
  | n + 1, s =>
      if s.j < u ∧ s.i < csize then rle4Fill csize u b1 n (store s (nib4 b1 (n + 1)))
      else s

/-- RLE8 absolute-mode loop, lines 555-556:
`for (k = 0; k < runlength && j < uncompr_size && i < compr_size; k++)
   uncomprbuf[j++] = comprbuf[i++];`
modelled with `rem` = runlength - k so that recursion is structural; the
returned Nat is the final value of `k`, needed for the pad test. -/
def rle8Abs (c : List Nat) (u : Nat) : Nat → Nat → RLEState → Nat × RLEState
  | 0, k, s => (k, s)
  | rem + 1, k, s =>
      if s.j < u ∧ s.i < c.length then
        rle8Abs c u rem (k + 1) (incI (store s (c.getD s.i 0)))
      else (k, s)

/-- RLE4 absolute-mode loop, lines 591-596: odd `k` consumes the low nibble
and advances `i`, even `k` reads the high nibble in place. -/
def rle4Abs (c : List Nat) (u : Nat) : Nat → Nat → RLEState → Nat × RLEState
  | 0, k, s => (k, s)
  | rem + 1, k, s =>
      if s.j < u ∧ s.i < c.length then
        if k &&& 1 ≠ 0 then rle4Abs c u rem (k + 1) (incI (store s (c.getD s.i 0 &&& 15)))
        else rle4Abs c u rem (k + 1) (store s ((c.getD s.i 0 &&& 240) >>> 4))
      else (k, s)

/-- One iteration of the RLE8 while loop (lines 530-560).  The result is
`(none, s)` when the C loop would go round again, `(some e, s)` when it
breaks out or commits undefined behaviour.  Reads that the source performs
under a bounds test appear as plain `getD`; the single unchecked read of the
escape second byte (line 541, reached right after `i++`) is modelled
explicitly: if `i` has reached `compr_size` the source reads one byte past
the buffer, which the model reports as `RLEExit.oobRead`. -/
def rle8Step (c : List Nat) (w u : Nat) (s : RLEState) : Option RLEExit × RLEState :=
  if c.getD s.i 0 ≠ 0 then
    -- lines 530-538: runlength = comprbuf[i++]; fill; i++
    let s2 := rle8Fill c.length u (c.getD (s.i + 1) 0) (c.getD s.i 0) (incI s)
    (none, incI s2)
  else
    -- line 540: i++
    let i1 := s.i + 1
    if i1 < c.length then
      let b1 := c.getD i1 0
      if b1 = 0 then (none, ⟨i1 + 1, s.j, s.uncomprbuf, s.written⟩)        -- line 542
      else if b1 = 1 then (some RLEExit.endOfImage, ⟨i1, s.j, s.uncomprbuf, s.written⟩)
      else if b1 = 2 then
        -- lines 545-552: i++; two delta bytes or break
        let i2 := i1 + 1
        if i2 < c.length - 1 then
          (none, ⟨i2 + 2,
                  (s.j + c.getD i2 0 + c.getD (i2 + 1) 0 * w) % 4294967296,
                  s.uncomprbuf, s.written⟩)
        else (some RLEExit.deltaTrunc, ⟨i2, s.j, s.uncomprbuf, s.written⟩)
      else
        -- lines 553-559: runlength = comprbuf[i++]; absolute run; pad
        let ks := rle8Abs c u b1 0 ⟨i1 + 1, s.j, s.uncomprbuf, s.written⟩
        (none, if ks.1 &&& 1 ≠ 0 then incI ks.2 else ks.2)
    else (some RLEExit.oobRead, ⟨i1, s.j, s.uncomprbuf, s.written⟩)

/-- One iteration of the RLE4 while loop (lines 564-601); the escape
handling (lines 575-588) is byte-for-byte the same as in RLE8, only the
encoded-run and absolute-mode bodies differ. -/
def rle4Step (c : List Nat) (w u : Nat) (s : RLEState) : Option RLEExit × RLEState :=
  if c.getD s.i 0 ≠ 0 then
    -- lines 565-574
    let s2 := rle4Fill c.length u (c.getD (s.i + 1) 0) (c.getD s.i 0) (incI s)
    (none, incI s2)
  else
    let i1 := s.i + 1
    if i1 < c.length then
      let b1 := c.getD i1 0
      if b1 = 0 then (none, ⟨i1 + 1, s.j, s.uncomprbuf, s.written⟩)
      else if b1 = 1 then (some RLEExit.endOfImage, ⟨i1, s.j, s.uncomprbuf, s.written⟩)
      else if b1 = 2 then
        let i2 := i1 + 1
        if i2 < c.length - 1 then
          (none, ⟨i2 + 2,
                  (s.j + c.getD i2 0 + c.getD (i2 + 1) 0 * w) % 4294967296,
                  s.uncomprbuf, s.written⟩)
        else (some RLEExit.deltaTrunc, ⟨i2, s.j, s.uncomprbuf, s.written⟩)
      else
        -- lines 589-599
        let ks := rle4Abs c u b1 0 ⟨i1 + 1, s.j, s.uncomprbuf, s.written⟩
        (none, if ks.1 &&& 1 ≠ 0 then incI ks.2 else ks.2)
    else (some RLEExit.oobRead, ⟨i1, s.j, s.uncomprbuf, s.written⟩)

/-- Driver for the RLE8 while loop `while (j < uncompr_size && i < compr_size)`
(line 529).  The C loop has no fuel; the fuel argument only makes the
recursion structural, and `rle_decode_loops_terminate` proves the
`fuelOut` branch unreachable for the fuel supplied by `rle8Decompress`. -/
def rle8Loop (c : List Nat) (w u : Nat) : Nat → RLEState → RLEExit × RLEState
  | 0, s => (RLEExit.fuelOut, s)
  | fuel + 1, s =>
      if s.j < u ∧ s.i < c.length then
        match rle8Step c w u s with
        | (some e, s2) => (e, s2)
        | (none, s2) => rle8Loop c w u fuel s2
      else (RLEExit.bufferEnd, s)

/-- Driver for the RLE4 while loop (line 564). -/
def rle4Loop (c : List Nat) (w u : Nat) : Nat → RLEState → RLEExit × RLEState
  | 0, s => (RLEExit.fuelOut, s)
  | fuel + 1, s =>
      if s.j < u ∧ s.i < c.length then
        match rle4Step c w u s with
        | (some e, s2) => (e, s2)
        | (none, s2) => rle4Loop c w u fuel s2
      else (RLEExit.bufferEnd, s)

/-- Whole RLE8 decompression (lines 526-562) over a compressed buffer `c`
and an output buffer whose initial contents are `init`: the source obtains
that buffer from `_TIFFmalloc(uncompr_size)` (line 522), which does not
clear memory, so the initial contents are arbitrary and the model takes
them as a parameter.  `i = j = 0` per lines 526-527. -/
def rle8Decompress (c : List Nat) (w : Nat) (init : List Nat) : RLEExit × RLEState :=
  rle8Loop c w init.length (c.length + 1) ⟨0, 0, init, List.replicate init.length false⟩

/-- Whole RLE4 decompression (lines 526-527 and 563-602). -/
def rle4Decompress (c : List Nat) (w : Nat) (init : List Nat) : RLEExit × RLEState :=
  rle4Loop c w init.length (c.length + 1) ⟨0, 0, init, List.replicate init.length false⟩

/-- Invariant for the tolerant-partial-decode analysis: buffer lengths never
change, and every output cell whose written flag is still false holds the
value the buffer started with. -/
def Untouched (init : List Nat) (s : RLEState) : Prop :=
  s.uncomprbuf.length = init.length ∧
  s.written.length = init.length ∧
  ∀ p, s.written.getD p false = false → s.uncomprbuf.getD p 0 = init.getD p 0

/-! ## List helpers -/

theorem getD_set_eq {α : Type} (l : List α) (i : Nat) (a d : α) (h : i < l.length) :
    (l.set i a).getD i d = a := by
  induction l generalizing i with
  | nil => simp at h
  | cons x xs ih =>
    cases i with
    | zero => rfl
    | succ n => exact ih n (by simpa using h)

theorem getD_set_ne {α : Type} (l : List α) (i j : Nat) (a d : α) (h : i ≠ j) :
    (l.set i a).getD j d = l.getD j d := by
  induction l generalizing i j with
  | nil => simp
  | cons x xs ih =>
    cases i with
    | zero =>
      cases j with
      | zero => exact absurd rfl h
      | succ m => rfl
    | succ n =>
      cases j with
      | zero => rfl
      | succ m => exact ih n m (by omega)

theorem getD_replicate_false (n p : Nat) :
    (List.replicate n false).getD p false = false := by
  induction n generalizing p with
  | zero => rfl
  | succ m ih =>
    cases p with
    | zero => rfl
    | succ q => exact ih q

/-! ## Field lemmas for the state helpers -/

@[simp] theorem store_i (s : RLEState) (v : Nat) : (store s v).i = s.i := rfl

@[simp] theorem store_j (s : RLEState) (v : Nat) : (store s v).j = s.j + 1 := rfl

@[simp] theorem store_buf (s : RLEState) (v : Nat) :
    (store s v).uncomprbuf = s.uncomprbuf.set s.j v := rfl

@[simp] theorem store_written (s : RLEState) (v : Nat) :
    (store s v).written = s.written.set s.j true := rfl

@[simp] theorem incI_i (s : RLEState) : (incI s).i = s.i + 1 := rfl

@[simp] theorem incI_j (s : RLEState) : (incI s).j = s.j := rfl

@[simp] theorem incI_buf (s : RLEState) : (incI s).uncomprbuf = s.uncomprbuf := rfl

@[simp] theorem incI_written (s : RLEState) : (incI s).written = s.written := rfl

/-! ## The compressed cursor only moves forward -/

theorem rle8Fill_i (csize u v : Nat) :
    ∀ (n : Nat) (s : RLEState), (rle8Fill csize u v n s).i = s.i := by
  intro n
  induction n with
  | zero => intro s; rfl
  | succ m ih =>
    intro s
    rw [rle8Fill]
    split
    · rw [ih]; rfl
    · rfl

theorem rle4Fill_i (csize u b1 : Nat) :
    ∀ (n : Nat) (s : RLEState), (rle4Fill csize u b1 n s).i = s.i := by
  intro n
  induction n with
  | zero => intro s; rfl
  | succ m ih =>
    intro s
    rw [rle4Fill]
    split
    · rw [ih]; rfl
    · rfl

theorem rle8Abs_i_le (c : List Nat) (u : Nat) :
    ∀ (rem k : Nat) (s : RLEState), s.i ≤ (rle8Abs c u rem k s).2.i := by
  intro rem
  induction rem with
  | zero => intro k s; exact Nat.le_refl _
  | succ m ih =>
    intro k s
    rw [rle8Abs]
    split
    · have h := ih (k + 1) (incI (store s (c.getD s.i 0)))
      simp only [incI_i, store_i] at h
      omega
    · exact Nat.le_refl _

theorem rle4Abs_i_le (c : List Nat) (u : Nat) :
    ∀ (rem k : Nat) (s : RLEState), s.i ≤ (rle4Abs c u rem k s).2.i := by
  intro rem
  induction rem with
  | zero => intro k s; exact Nat.le_refl _
  | succ m ih =>
    intro k s
    rw [rle4Abs]
    split
    · split
      · have h := ih (k + 1) (incI (store s (c.getD s.i 0 &&& 15)))
        simp only [incI_i, store_i] at h
        omega
      · have h := ih (k + 1) (store s ((c.getD s.i 0 &&& 240) >>> 4))
        simp only [store_i] at h
        omega
    · exact Nat.le_refl _

theorem rle8Step_i_lt (c : List Nat) (w u : Nat) (s : RLEState) :
    s.i < (rle8Step c w u s).2.i := by
  have habs := rle8Abs_i_le c u (c.getD (s.i + 1) 0) 0
    ⟨s.i + 1 + 1, s.j, s.uncomprbuf, s.written⟩
  unfold rle8Step
  dsimp only
  split
  · simp only [incI_i, rle8Fill_i]
    omega
  · split
    · split
      · dsimp only; omega
      · split
        · dsimp only; omega
        · split
          · split
            · dsimp only; omega
            · dsimp only; omega
          · split
            · simp only [incI_i]
              dsimp only at habs
              omega
            · dsimp only at habs ⊢
              omega
    · dsimp only; omega

theorem rle4Step_i_lt (c : List Nat) (w u : Nat) (s : RLEState) :
    s.i < (rle4Step c w u s).2.i := by
  have habs := rle4Abs_i_le c u (c.getD (s.i + 1) 0) 0
    ⟨s.i + 1 + 1, s.j, s.uncomprbuf, s.written⟩
  unfold rle4Step
  dsimp only
  split
  · simp only [incI_i, rle4Fill_i]
    omega
  · split
    · split
      · dsimp only; omega
      · split
        · dsimp only; omega
        · split
          · split
            · dsimp only; omega
            · dsimp only; omega
          · split
            · simp only [incI_i]
              dsimp only at habs
              omega
            · dsimp only at habs ⊢
              omega
    · dsimp only; omega

theorem rle8Step_ne_fuelOut (c : List Nat) (w u : Nat) (s : RLEState) :
    (rle8Step c w u s).1 ≠ some RLEExit.fuelOut := by
  unfold rle8Step
  dsimp only
  split
  · simp
  · split
    · split
      · simp
      · split
        · simp
        · split
          · split
            · simp
            · simp
          · simp
    · simp

theorem rle4Step_ne_fuelOut (c : List Nat) (w u : Nat) (s : RLEState) :
    (rle4Step c w u s).1 ≠ some RLEExit.fuelOut := by
  unfold rle4Step
  dsimp only
  split
  · simp
  · split
    · split
      · simp
      · split
        · simp
        · split
          · split
            · simp
            · simp
          · simp
    · simp

theorem rle8Loop_ne_fuelOut (c : List Nat) (w u : Nat) :
    ∀ (fuel : Nat) (s : RLEState), c.length - s.i < fuel →
      (rle8Loop c w u fuel s).1 ≠ RLEExit.fuelOut := by
  intro fuel
  induction fuel with
  | zero => intro s h; omega
  | succ f ih =>
    intro s h
    rw [rle8Loop]
    split
    · rename_i hcond
      rcases hstep : rle8Step c w u s with ⟨o, s2⟩
      have hlt := rle8Step_i_lt c w u s
      rw [hstep] at hlt
      cases o with
      | none =>
        simp only [hstep]
        exact ih s2 (by dsimp only at hlt; omega)
      | some e =>
        simp only [hstep]
        have hne := rle8Step_ne_fuelOut c w u s
        rw [hstep] at hne
        intro hcontra
        exact hne (by simp [hcontra])
    · simp

theorem set_of_length_le {α : Type} (l : List α) (i : Nat) (a : α) (h : l.length ≤ i) :
    l.set i a = l := by
  induction l generalizing i with
  | nil => rfl
  | cons x xs ih =>
    cases i with
    | zero => simp at h
    | succ n => simp only [List.set]; rw [ih n (by simpa using h)]

theorem untouched_store (init : List Nat) (s : RLEState) (v : Nat)
    (h : Untouched init s) : Untouched init (store s v) := by
  obtain ⟨h1, h2, h3⟩ := h
  refine ⟨by simp [h1], by simp [h2], ?_⟩
  intro p hp
  simp only [store_buf, store_written] at hp ⊢
  by_cases hpj : s.j = p
  · subst hpj
    by_cases hlen : s.j < s.written.length
    · rw [getD_set_eq _ _ _ _ hlen] at hp
      exact absurd hp (by simp)
    · rw [set_of_length_le _ _ _ (by omega)] at hp
      rw [set_of_length_le _ _ _ (by omega)]
      exact h3 _ hp
  · rw [getD_set_ne _ _ _ _ _ hpj] at hp
    rw [getD_set_ne _ _ _ _ _ hpj]
    exact h3 p hp

theorem untouched_incI (init : List Nat) (s : RLEState)
    (h : Untouched init s) : Untouched init (incI s) := h

theorem untouched_rle8Fill (init : List Nat) (csize u v : Nat) :
    ∀ (n : Nat) (s : RLEState), Untouched init s →
      Untouched init (rle8Fill csize u v n s) := by
  intro n
  induction n with
  | zero => intro s h; exact h
  | succ m ih =>
    intro s h
    rw [rle8Fill]
    split
    · exact ih _ (untouched_store init s v h)
    · exact h

theorem untouched_rle4Fill (init : List Nat) (csize u b1 : Nat) :
    ∀ (n : Nat) (s : RLEState), Untouched init s →
      Untouched init (rle4Fill csize u b1 n s) := by
  intro n
  induction n with
  | zero => intro s h; exact h
  | succ m ih =>
    intro s h
    rw [rle4Fill]
    split
    · exact ih _ (untouched_store init s _ h)
    · exact h

theorem untouched_rle8Abs (init : List Nat) (c : List Nat) (u : Nat) :
    ∀ (rem k : Nat) (s : RLEState), Untouched init s →
      Untouched init (rle8Abs c u rem k s).2 := by
  intro rem
  induction rem with
  | zero => intro k s h; exact h
  | succ m ih =>
    intro k s h
    rw [rle8Abs]
    split
    · exact ih (k + 1) _ (untouched_incI init _ (untouched_store init s _ h))
    · exact h

theorem untouched_rle4Abs (init : List Nat) (c : List Nat) (u : Nat) :
    ∀ (rem k : Nat) (s : RLEState), Untouched init s →
      Untouched init (rle4Abs c u rem k s).2 := by
  intro rem
  induction rem with
  | zero => intro k s h; exact h
  | succ m ih =>
    intro k s h
    rw [rle4Abs]
    split
    · split
      · exact ih (k + 1) _ (untouched_incI init _ (untouched_store init s _ h))
      · exact ih (k + 1) _ (untouched_store init s _ h)
    · exact h

theorem untouched_rle8Step (c : List Nat) (w u : Nat) (init : List Nat) (s : RLEState)
    (h : Untouched init s) : Untouched init (rle8Step c w u s).2 := by
  unfold rle8Step
  dsimp only
  split
  · exact untouched_incI init _
      (untouched_rle8Fill init c.length u _ _ _ (untouched_incI init s h))
  · split
    · split
      · exact h
      · split
        · exact h
        · split
          · split
            · exact h
            · exact h
          · split
            · exact untouched_incI init _
                (untouched_rle8Abs init c u _ 0 ⟨s.i + 1 + 1, s.j, s.uncomprbuf, s.written⟩ h)
            · exact untouched_rle8Abs init c u _ 0 ⟨s.i + 1 + 1, s.j, s.uncomprbuf, s.written⟩ h
    · exact h

theorem untouched_rle4Step (c : List Nat) (w u : Nat) (init : List Nat) (s : RLEState)
    (h : Untouched init s) : Untouched init (rle4Step c w u s).2 := by
  unfold rle4Step
  dsimp only
  split
  · exact untouched_incI init _
      (untouched_rle4Fill init c.length u _ _ _ (untouched_incI init s h))
  · split
    · split
      · exact h
      · split
        · exact h
        · split
          · split
            · exact h
            · exact h
          · split
            · exact untouched_incI init _
                (untouched_rle4Abs init c u _ 0 ⟨s.i + 1 + 1, s.j, s.uncomprbuf, s.written⟩ h)
            · exact untouched_rle4Abs init c u _ 0 ⟨s.i + 1 + 1, s.j, s.uncomprbuf, s.written⟩ h
    · exact h

theorem untouched_rle8Loop (c : List Nat) (w u : Nat) (init : List Nat) :
    ∀ (fuel : Nat) (s : RLEState), Untouched init s →
      Untouched init (rle8Loop c w u fuel s).2 := by
  intro fuel
  induction fuel with
  | zero => intro s h; exact h
  | succ f ih =>
    intro s h
    rw [rle8Loop]
    split
    · rcases hstep : rle8Step c w u s with ⟨o, s2⟩
      have hpres := untouched_rle8Step c w u init s h
      rw [hstep] at hpres
      cases o with
      | none => simp only [hstep]; exact ih s2 hpres
      | some e => simp only [hstep]; exact hpres
    · exact h

theorem untouched_rle4Loop (c : List Nat) (w u : Nat) (init : List Nat) :
    ∀ (fuel : Nat) (s : RLEState), Untouched init s →
      Untouched init (rle4Loop c w u fuel s).2 := by
  intro fuel
  induction fuel with
  | zero => intro s h; exact h
  | succ f ih =>
    intro s h
    rw [rle4Loop]
    split
    · rcases hstep : rle4Step c w u s with ⟨o, s2⟩
      have hpres := untouched_rle4Step c w u init s h
      rw [hstep] at hpres
      cases o with
      | none => simp only [hstep]; exact ih s2 hpres
      | some e => simp only [hstep]; exact hpres
    · exact h

/-! ## Exact behaviour of the inner loops when nothing runs short -/

theorem rle4Fill_spec (csize u b1 : Nat) :
    ∀ (n : Nat) (s : RLEState),
      s.j + n ≤ u → s.j + n ≤ s.uncomprbuf.length → (0 < n → s.i < csize) →
      (rle4Fill csize u b1 n s).i = s.i ∧
      (rle4Fill csize u b1 n s).j = s.j + n ∧
      (rle4Fill csize u b1 n s).uncomprbuf.length = s.uncomprbuf.length ∧
      (∀ p, p < s.j →
        (rle4Fill csize u b1 n s).uncomprbuf.getD p 0 = s.uncomprbuf.getD p 0) ∧
      (∀ t, t < n →
        (rle4Fill csize u b1 n s).uncomprbuf.getD (s.j + t) 0 = nib4 b1 (n - t)) := by
  intro n
  induction n with
  | zero =>
    intro s h1 h2 h3
    exact ⟨rfl, rfl, rfl, fun p hp => rfl, fun t ht => absurd ht (by omega)⟩
  | succ m ih =>
    intro s h1 h2 h3
    have hj : s.j < u := by omega
    have hi : s.i < csize := h3 (by omega)
    have hrw : rle4Fill csize u b1 (m + 1) s =
        rle4Fill csize u b1 m (store s (nib4 b1 (m + 1))) := by
      rw [rle4Fill, if_pos ⟨hj, hi⟩]
    obtain ⟨e1, e2, e3, e4, e5⟩ := ih (store s (nib4 b1 (m + 1)))
      (by simp only [store_j]; omega)
      (by simp only [store_j, store_buf, List.length_set]; omega)
      (fun _ => by simpa using hi)
    rw [hrw]
    refine ⟨by rw [e1]; rfl, by rw [e2]; simp only [store_j]; omega,
      by rw [e3]; simp only [store_buf, List.length_set], ?_, ?_⟩
    · intro p hp
      rw [e4 p (by simp only [store_j]; omega)]
      simp only [store_buf]
      exact getD_set_ne _ _ _ _ _ (by omega)
    · intro t ht
      cases t with
      | zero =>
        simp only [Nat.add_zero, Nat.sub_zero]
        rw [e4 s.j (by simp only [store_j]; omega)]
        simp only [store_buf]
        exact getD_set_eq _ _ _ _ (by omega)
      | succ r =>
        have hpos : s.j + (r + 1) = (store s (nib4 b1 (m + 1))).j + r := by
          simp only [store_j]; omega
        rw [hpos, e5 r (by omega)]
        have : m - r = m + 1 - (r + 1) := by omega
        rw [this]

theorem rle8Abs_spec (c : List Nat) (u : Nat) :
    ∀ (rem k : Nat) (s : RLEState), s.j + rem ≤ u → s.i + rem ≤ c.length →
      (rle8Abs c u rem k s).1 = k + rem ∧
      (rle8Abs c u rem k s).2.i = s.i + rem ∧
      (rle8Abs c u rem k s).2.j = s.j + rem := by
  intro rem
  induction rem with
  | zero => intro k s h1 h2; exact ⟨rfl, rfl, rfl⟩
  | succ m ih =>
    intro k s h1 h2
    have hcond : s.j < u ∧ s.i < c.length := ⟨by omega, by omega⟩
    rw [rle8Abs, if_pos hcond]
    obtain ⟨e1, e2, e3⟩ := ih (k + 1) (incI (store s (c.getD s.i 0)))
      (by simp only [incI_j, store_j]; omega)
      (by simp only [incI_i, store_i]; omega)
    refine ⟨by rw [e1]; omega, ?_, ?_⟩
    · rw [e2]; simp only [incI_i, store_i]; omega
    · rw [e3]; simp only [incI_j, store_j]; omega

theorem rle4Abs_spec (c : List Nat) (u : Nat) :
    ∀ (rem k : Nat) (s : RLEState), s.j + rem ≤ u → s.i + rem ≤ c.length →
      (rle4Abs c u rem k s).1 = k + rem ∧
      (rle4Abs c u rem k s).2.i = s.i + ((k + rem) / 2 - k / 2) ∧
      (rle4Abs c u rem k s).2.j = s.j + rem := by
  intro rem
  induction rem with
  | zero =>
    intro k s h1 h2
    refine ⟨rfl, ?_, rfl⟩
    show s.i = s.i + ((k + 0) / 2 - k / 2)
    omega
  | succ m ih =>
    intro k s h1 h2
    have hcond : s.j < u ∧ s.i < c.length := ⟨by omega, by omega⟩
    have hand : k &&& 1 = k % 2 := Nat.and_one_is_mod k
    rw [rle4Abs, if_pos hcond]
    by_cases hk : k &&& 1 ≠ 0
    · have hk2 : k % 2 = 1 := by omega
      rw [if_pos hk]
      obtain ⟨e1, e2, e3⟩ := ih (k + 1) (incI (store s (c.getD s.i 0 &&& 15)))
        (by simp only [incI_j, store_j]; omega)
        (by simp only [incI_i, store_i]; omega)
      refine ⟨by rw [e1]; omega, ?_, ?_⟩
      · rw [e2]; simp only [incI_i, store_i]; omega
      · rw [e3]; simp only [incI_j, store_j]; omega
    · have hk2 : k % 2 = 0 := by omega
      rw [if_neg hk]
      obtain ⟨e1, e2, e3⟩ := ih (k + 1) (store s ((c.getD s.i 0 &&& 240) >>> 4))
        (by simp only [store_j]; omega)
        (by simp only [store_i]; omega)
      refine ⟨by rw [e1]; omega, ?_, ?_⟩
      · rw [e2]; simp only [store_i]; omega
      · rw [e3]; simp only [store_j]; omega

theorem untouched_rle8Decompress (c : List Nat) (w : Nat) (init : List Nat) :
    Untouched init (rle8Decompress c w init).2 := by
  apply untouched_rle8Loop
  exact ⟨rfl, by simp, fun p _ => rfl⟩

theorem untouched_rle4Decompress (c : List Nat) (w : Nat) (init : List Nat) :
    Untouched init (rle4Decompress c w init).2 := by
  apply untouched_rle4Loop
  exact ⟨rfl, by simp, fun p _ => rfl⟩

theorem rle4Loop_ne_fuelOut (c : List Nat) (w u : Nat) :
    ∀ (fuel : Nat) (s : RLEState), c.length - s.i < fuel →
      (rle4Loop c w u fuel s).1 ≠ RLEExit.fuelOut := by
  intro fuel
  induction fuel with
  | zero => intro s h; omega
  | succ f ih =>
    intro s h
    rw [rle4Loop]
    split
    · rename_i hcond
      rcases hstep : rle4Step c w u s with ⟨o, s2⟩
      have hlt := rle4Step_i_lt c w u s
      rw [hstep] at hlt
      cases o with
      | none =>
        simp only [hstep]
        exact ih s2 (by dsimp only at hlt; omega)
      | some e =>
        simp only [hstep]
        have hne := rle4Step_ne_fuelOut c w u s
        rw [hstep] at hne
        intro hcontra
        exact hne (by simp [hcontra])
    · simp

/-- Clearing the five low bits of a 32-bit value with the mask `~31`
(4294967264) rounds it down to a multiple of 32. -/
theorem and_mask_32 (x : Nat) (hx : x < 4294967296) : x &&& 4294967264 = x / 32 * 32 := by
  have hsh : x / 32 * 32 = (x >>> 5) <<< 5 := by
    rw [Nat.shiftRight_eq_div_pow, Nat.shiftLeft_eq]
  rw [hsh]
  apply Nat.eq_of_testBit_eq
  intro t
  rw [Nat.testBit_land]
  rcases Nat.lt_or_ge t 32 with h32 | h32
  · rcases Nat.lt_or_ge t 5 with h5 | h5
    · have hm : Nat.testBit 4294967264 t = false := by interval_cases t <;> decide
      have hs : Nat.testBit ((x >>> 5) <<< 5) t = false := by
        rw [Nat.testBit_shiftLeft]
        simp [Nat.not_le.mpr h5]
      simp [hm, hs]
    · have hm : Nat.testBit 4294967264 t = true := by interval_cases t <;> decide
      have hs : Nat.testBit ((x >>> 5) <<< 5) t = Nat.testBit x t := by
        rw [Nat.testBit_shiftLeft, Nat.testBit_shiftRight]
        have h55 : 5 + (t - 5) = t := by omega
        simp [h5, h55]
      simp [hm, hs]
  · have h2t : (4294967296 : Nat) ≤ 2 ^ t :=
      le_trans (by norm_num) (Nat.pow_le_pow_right (by norm_num) h32)
    have hxt : Nat.testBit x t = false :=
      Nat.testBit_lt_two_pow (lt_of_lt_of_le hx h2t)
    have hmt : Nat.testBit 4294967264 t = false :=
      Nat.testBit_lt_two_pow (lt_of_lt_of_le (by norm_num) h2t)
    have hxt2 : Nat.testBit x (5 + (t - 5)) = false := by
      have h55 : 5 + (t - 5) = t := by omega
      rw [h55]
      exact hxt
    simp [hxt, hmt, hxt2]

/-! ## Claims -/

/-- C1 (code_bug): the spec requires every read from the compressed buffer
to be bounds-checked, and in particular that the escape second byte B1 is
never read when the escape byte B0 = 0 is the last byte of the buffer.  The
code violates this: after the escape `i++` (line 540/576) it tests
`comprbuf[i]` (line 541/577) with no bounds check, so for the one-byte
stream [0x00] both decompressors read comprbuf[1], one byte past the end of
the allocation.  The model reports that read as the `oobRead` exit. -/
theorem rle_escape_second_byte_read_past_end :
    (rle8Decompress [0] 1 [0]).1 = RLEExit.oobRead ∧
    (rle4Decompress [0] 1 [0]).1 = RLEExit.oobRead := by decide

/-- C2 counterexample: the claim says every output position never written
by the time decoding stops holds 0.  The output buffer comes from
`_TIFFmalloc` (line 522), which does not clear memory; decoding the
truncated RLE8 stream [0x01, 0x05] into a 3-cell buffer whose initial
(garbage) contents are 9 writes only cell 0, and cell 1 still holds 9, not
0, when decoding stops. -/
theorem rle_unwritten_position_not_zero :
    (rle8Decompress [1, 5] 1 [9, 9, 9]).2.written.getD 1 true = false ∧
    (rle8Decompress [1, 5] 1 [9, 9, 9]).2.uncomprbuf.getD 1 0 ≠ 0 := by decide

/-- C2 (corrected): for a truncated stream, decoding still stops (never the
fuel exit, i.e. the C loop terminates) without a hard failure, and every
output position never written retains the initial contents of the malloc
buffer, which are arbitrary rather than zero. -/
theorem rle_unwritten_positions_keep_initial (c : List Nat) (w : Nat)
    (init : List Nat) (p : Nat)
    (h8 : (rle8Decompress c w init).2.written.getD p false = false)
    (h4 : (rle4Decompress c w init).2.written.getD p false = false) :
    (rle8Decompress c w init).1 ≠ RLEExit.fuelOut ∧
    (rle4Decompress c w init).1 ≠ RLEExit.fuelOut ∧
    (rle8Decompress c w init).2.uncomprbuf.getD p 0 = init.getD p 0 ∧
    (rle4Decompress c w init).2.uncomprbuf.getD p 0 = init.getD p 0 := by
  refine ⟨?_, ?_, ?_, ?_⟩
  · unfold rle8Decompress
    exact rle8Loop_ne_fuelOut c w init.length (c.length + 1) _ (by dsimp only; omega)
  · unfold rle4Decompress
    exact rle4Loop_ne_fuelOut c w init.length (c.length + 1) _ (by dsimp only; omega)
  · exact (untouched_rle8Decompress c w init).2.2 p h8
  · exact (untouched_rle4Decompress c w init).2.2 p h4

/-- Witness for C2: the truncated stream [0x01, 0x05] with initial buffer
contents [9, 9, 9] leaves position 1 untouched at its initial value 9. -/
theorem rle_unwritten_positions_keep_initial_witness :
    (rle8Decompress [1, 5] 1 [9, 9, 9]).2.uncomprbuf.getD 1 0 = 9 ∧
    (rle4Decompress [1, 5] 1 [9, 9, 9]).2.uncomprbuf.getD 1 0 = 9 := by
  have h := rle_unwritten_positions_keep_initial [1, 5] 1 [9, 9, 9] 1
    (by decide) (by decide)
  exact ⟨h.2.2.1.trans (by decide), h.2.2.2.trans (by decide)⟩

/-- C3 counterexample: the claim says every RLE4 encoded run starts with
the high nibble of B1 whether B0 is even or odd.  For the run (B0, B1) =
(2, 0xAB) the code emits the low nibble 0x0B first (the parity test at line
568 is on the remaining count, which starts at the even value 2), so the
output is [11, 10], not the claimed [high, low] = [10, 11]. -/
theorem rle4_even_run_starts_with_low_nibble :
    (rle4Decompress [2, 171] 1 [7, 7]).2.uncomprbuf = [11, 10] ∧
    (rle4Decompress [2, 171] 1 [7, 7]).2.uncomprbuf ≠
      [(171 &&& 240) >>> 4, 171 &&& 15] := by decide

/-- C3 (corrected): in an RLE4 encoded run (B0, B1) with B0 > 0, pixel t
(0-indexed) of the run carries the nibble selected by the parity of the
remaining count B0 - t: the high nibble of B1 when B0 - t is odd, the low
nibble when it is even.  Hence the run starts with the high nibble exactly
when B0 is odd; for even B0 it starts with the low nibble. -/
theorem rle4_encoded_run_nibble_parity (c : List Nat) (w u : Nat) (s : RLEState)
    (b0 : Nat) (hb : c.getD s.i 0 = b0) (h0 : 0 < b0) (hi : s.i + 1 < c.length)
    (hj : s.j + b0 ≤ u) (hu : u ≤ s.uncomprbuf.length) :
    (rle4Step c w u s).1 = none ∧
    (rle4Step c w u s).2.i = s.i + 2 ∧
    (rle4Step c w u s).2.j = s.j + b0 ∧
    ∀ t, t < b0 →
      (rle4Step c w u s).2.uncomprbuf.getD (s.j + t) 0 =
        nib4 (c.getD (s.i + 1) 0) (b0 - t) := by
  have hb0 : c.getD s.i 0 ≠ 0 := by rw [hb]; omega
  unfold rle4Step
  rw [if_pos hb0]
  dsimp only
  rw [hb]
  obtain ⟨e1, e2, e3, e4, e5⟩ := rle4Fill_spec c.length u (c.getD (s.i + 1) 0) b0 (incI s)
    (by simp only [incI_j]; omega)
    (by simp only [incI_j, incI_buf]; omega)
    (fun _ => by simp only [incI_i]; omega)
  refine ⟨rfl, ?_, ?_, ?_⟩
  · simp only [incI_i]
    rw [e1]
    simp only [incI_i]
  · simp only [incI_j]
    rw [e2]
    simp only [incI_j]
  · intro t ht
    simp only [incI_buf]
    have h := e5 t ht
    simpa using h

/-- Witness for C3: the run (B0, B1) = (3, 0xAB) at the start of the buffer
[3, 171, 9] emits high, low, high = 10, 11, 10. -/
theorem rle4_encoded_run_nibble_parity_witness :
    (rle4Step [3, 171, 9] 1 4
      ⟨0, 0, [0, 0, 0, 0], [false, false, false, false]⟩).2.uncomprbuf.getD 0 0
      = nib4 171 3 ∧
    (rle4Step [3, 171, 9] 1 4
      ⟨0, 0, [0, 0, 0, 0], [false, false, false, false]⟩).2.uncomprbuf
      = [10, 11, 10, 0] := by
  have h := rle4_encoded_run_nibble_parity [3, 171, 9] 1 4
    ⟨0, 0, [0, 0, 0, 0], [false, false, false, false]⟩ 3
    (by decide) (by decide) (by decide) (by decide) (by decide)
  refine ⟨?_, by decide⟩
  have h0 := h.2.2.2 0 (by decide)
  simpa using h0

/-- C4 counterexample: the claim says the OS22 variant uses 4-byte colour
table entries; the code sets n_clr_elems back to 3 for OS22 (line 329). -/
theorem os22_color_entry_width_not_four :
    n_clr_elems BMPType.os22 = 3 ∧ n_clr_elems BMPType.os22 ≠ 4 := by decide

/-- C4 (corrected): the per-entry width of the colour table is 4 bytes for
the Win4 and Win5 variants and 3 bytes for both OS21 and OS22. -/
theorem color_entry_widths :
    n_clr_elems BMPType.win4 = 4 ∧ n_clr_elems BMPType.win5 = 4 ∧
    n_clr_elems BMPType.os21 = 3 ∧ n_clr_elems BMPType.os22 = 3 := by decide

/-- C5 counterexample: the claim says a compression value outside
{RGB, RLE4, RLE8} produces a fatal UnsupportedCompression error that is
surfaced and not silently swallowed.  The dispatch of main has no else
branch: for BITFIELDS (3), JPEG (4) and PNG (5) it selects no pixel path,
decodes zero scanlines, prints nothing and the program still returns 0. -/
theorem unsupported_compression_silently_ignored :
    compressionDispatch 3 = PixelPathAction.silentSkip ∧
    compressionDispatch 4 = PixelPathAction.silentSkip ∧
    compressionDispatch 5 = PixelPathAction.silentSkip ∧
    dispatchScanlines (compressionDispatch 3) 7 = 0 := by decide

/-- C5 (corrected): every compression value outside {RGB, RLE4, RLE8}
skips pixel decoding entirely (no scanline is produced), but no error of
any kind is raised or reported: the condition is silently ignored. -/
theorem unsupported_compression_skipped (iCompression L : Nat)
    (h0 : iCompression ≠ 0) (h1 : iCompression ≠ 1) (h2 : iCompression ≠ 2) :
    compressionDispatch iCompression = PixelPathAction.silentSkip ∧
    dispatchScanlines (compressionDispatch iCompression) L = 0 := by
  have hd : compressionDispatch iCompression = PixelPathAction.silentSkip := by
    unfold compressionDispatch
    rw [if_neg h0, if_neg (by rintro (h | h) <;> contradiction)]
  exact ⟨hd, by rw [hd]; rfl⟩

/-- Witness for C5 at the BITFIELDS value 3. -/
theorem unsupported_compression_skipped_witness :
    compressionDispatch 3 = PixelPathAction.silentSkip ∧
    dispatchScanlines (compressionDispatch 3) 9 = 0 :=
  unsupported_compression_skipped 3 9 (by decide) (by decide) (by decide)

/-- C6 counterexample: the claim says the absolute-mode literal run is
followed by one discarded pad byte iff B1 is odd, keeping the total bytes
consumed even for RLE4 just as for RLE8.  For the RLE4 absolute run with
B1 = 6 over [0x00, 0x06, 0x12, 0x34, 0x56], the cursor ends at i = 5:
exactly 3 bytes after the two-byte opcode header, an odd total with no pad
byte, so the even-total rule fails for RLE4. -/
theorem rle4_absolute_consumes_odd_byte_total :
    (rle4Decompress [0, 6, 18, 52, 86] 1 (List.replicate 8 0)).2.i = 5 ∧
    ((rle4Decompress [0, 6, 18, 52, 86] 1 (List.replicate 8 0)).2.i - 2) % 2 = 1 := by
  decide

/-- Exact cursor movement of one RLE8 absolute-mode opcode. -/
theorem rle8Step_abs_spec (c : List Nat) (w u : Nat) (s : RLEState) (b1 : Nat)
    (h0 : c.getD s.i 0 = 0) (hb : c.getD (s.i + 1) 0 = b1) (h3 : 3 ≤ b1)
    (hj : s.j + b1 ≤ u) (hi : s.i + 2 + b1 + b1 % 2 ≤ c.length) :
    (rle8Step c w u s).1 = none ∧
    (rle8Step c w u s).2.i = s.i + 2 + b1 + b1 % 2 ∧
    (rle8Step c w u s).2.j = s.j + b1 := by
  have hb0 : ¬ c.getD s.i 0 ≠ 0 := by rw [h0]; simp
  have hi1 : s.i + 1 < c.length := by omega
  have hband : b1 &&& 1 = b1 % 2 := Nat.and_one_is_mod b1
  unfold rle8Step
  rw [if_neg hb0]
  dsimp only
  rw [if_pos hi1, hb,
      if_neg (show ¬ b1 = 0 by omega), if_neg (show ¬ b1 = 1 by omega),
      if_neg (show ¬ b1 = 2 by omega)]
  obtain ⟨a1, a2, a3⟩ := rle8Abs_spec c u b1 0
    ⟨s.i + 1 + 1, s.j, s.uncomprbuf, s.written⟩
    (by dsimp only; omega) (by dsimp only; omega)
  simp only [Nat.zero_add] at a1
  dsimp only at a2 a3
  refine ⟨rfl, ?_, ?_⟩
  · dsimp only
    split
    · rename_i hcond
      rw [a1, hband] at hcond
      simp only [incI_i]
      omega
    · rename_i hcond
      rw [a1, hband] at hcond
      omega
  · dsimp only
    split
    · simp only [incI_j]
      omega
    · omega

theorem rle4Step_abs_spec (c : List Nat) (w u : Nat) (s : RLEState) (b1 : Nat)
    (h0 : c.getD s.i 0 = 0) (hb : c.getD (s.i + 1) 0 = b1) (h3 : 3 ≤ b1)
    (hj : s.j + b1 ≤ u) (hi : s.i + 2 + b1 + b1 % 2 ≤ c.length) :
    (rle4Step c w u s).1 = none ∧
    (rle4Step c w u s).2.i = s.i + 2 + b1 / 2 + b1 % 2 ∧
    (rle4Step c w u s).2.j = s.j + b1 := by
  have hb0 : ¬ c.getD s.i 0 ≠ 0 := by rw [h0]; simp
  have hi1 : s.i + 1 < c.length := by omega
  have hband : b1 &&& 1 = b1 % 2 := Nat.and_one_is_mod b1
  unfold rle4Step
  rw [if_neg hb0]
  dsimp only
  rw [if_pos hi1, hb,
      if_neg (show ¬ b1 = 0 by omega), if_neg (show ¬ b1 = 1 by omega),
      if_neg (show ¬ b1 = 2 by omega)]
  obtain ⟨d1, d2, d3⟩ := rle4Abs_spec c u b1 0
    ⟨s.i + 1 + 1, s.j, s.uncomprbuf, s.written⟩
    (by dsimp only; omega) (by dsimp only; omega)
  simp only [Nat.zero_add, Nat.zero_div, Nat.sub_zero] at d1 d2
  dsimp only at d2 d3
  refine ⟨rfl, ?_, ?_⟩
  · dsimp only
    split
    · rename_i hcond
      rw [d1, hband] at hcond
      simp only [incI_i]
      omega
    · rename_i hcond
      rw [d1, hband] at hcond
      omega
  · dsimp only
    split
    · simp only [incI_j]
      omega
    · omega

/-- C6 (corrected): in absolute mode with enough input and output left,
RLE8 consumes B1 literal bytes plus one pad byte iff B1 is odd (total after
the two opcode bytes is B1 + B1 % 2, always even), while RLE4 consumes
B1/2 + B1 % 2 = ceil(B1/2) bytes: its trailing increment when B1 is odd
steps past the final half-consumed byte rather than discarding a separate
pad byte, and the total is not rounded up to an even count. -/
theorem rle_absolute_mode_byte_consumption (c : List Nat) (w u : Nat)
    (s : RLEState) (b1 : Nat)
    (h0 : c.getD s.i 0 = 0) (hb : c.getD (s.i + 1) 0 = b1) (h3 : 3 ≤ b1)
    (hj : s.j + b1 ≤ u) (hi : s.i + 2 + b1 + b1 % 2 ≤ c.length) :
    (rle8Step c w u s).1 = none ∧
    (rle8Step c w u s).2.i = s.i + 2 + b1 + b1 % 2 ∧
    (rle8Step c w u s).2.j = s.j + b1 ∧
    (rle4Step c w u s).1 = none ∧
    (rle4Step c w u s).2.i = s.i + 2 + b1 / 2 + b1 % 2 ∧
    (rle4Step c w u s).2.j = s.j + b1 := by
  obtain ⟨e1, e2, e3⟩ := rle8Step_abs_spec c w u s b1 h0 hb h3 hj hi
  obtain ⟨f1, f2, f3⟩ := rle4Step_abs_spec c w u s b1 h0 hb h3 hj hi
  exact ⟨e1, e2, e3, f1, f2, f3⟩

/-- Witness for C6: the absolute run with B1 = 5 over an 8-byte buffer:
RLE8 ends at i = 8 (5 literals plus one pad), RLE4 at i = 5 (3 bytes,
ceil(5/2), odd total). -/
theorem rle_absolute_mode_byte_consumption_witness :
    (rle8Step [0, 5, 9, 9, 9, 9, 9, 9] 1 8
      ⟨0, 0, List.replicate 8 0, List.replicate 8 false⟩).2.i = 8 ∧
    (rle4Step [0, 5, 9, 9, 9, 9, 9, 9] 1 8
      ⟨0, 0, List.replicate 8 0, List.replicate 8 false⟩).2.i = 5 := by
  have h := rle_absolute_mode_byte_consumption [0, 5, 9, 9, 9, 9, 9, 9] 1 8
    ⟨0, 0, List.replicate 8 0, List.replicate 8 false⟩ 5
    (by decide) (by decide) (by decide) (by decide) (by decide)
  exact ⟨h.2.1.trans (by decide), h.2.2.2.2.1.trans (by decide)⟩

/-- C7 (confirmed): the RLE path emits display row r from the flat index
buffer starting at offset (length - 1 - r) * width, spanning width cells,
and the expression at line 607 does not depend on the sign of the header
height: the compressed stream is always treated as bottom-up. -/
theorem rle_rows_emitted_bottom_up (iHeight : Int) (buf : List Nat)
    (L W r : Nat) :
    rleEmittedRow iHeight buf L W r = (buf.drop ((L - 1 - r) * W)).take W ∧
    rleEmittedRow iHeight buf L W r = rleEmittedRow (-iHeight) buf L W r := by
  constructor
  · unfold rleEmittedRow
    have h : L - r - 1 = L - 1 - r := by omega
    rw [h]
  · rfl

/-- C8 (confirmed): in the uncompressed path, display row r is read from
absolute file offset pixelDataOffset + (length - 1 - r) * rowStride when
the height is positive (bottom-up storage) and pixelDataOffset +
r * rowStride when it is negative (top-down storage), and exactly
rowStride bytes are taken, provided the 32-bit offset arithmetic does not
wrap. -/
theorem uncompressed_row_access (iOffBits : Nat) (iHeight : Int)
    (L W B r : Nat) (hr : r < L)
    (hov : iOffBits + L * size W B < 4294967296) :
    (0 < iHeight →
      uncompressedRowOffset iOffBits iHeight L (size W B) r =
        iOffBits + (L - 1 - r) * size W B) ∧
    (iHeight < 0 →
      uncompressedRowOffset iOffBits iHeight L (size W B) r =
        iOffBits + r * size W B) ∧
    ∀ file : List Nat,
      uncompressedRowOffset iOffBits iHeight L (size W B) r + size W B ≤ file.length →
      (uncompressedRowBytes file iOffBits iHeight L (size W B) r).length = size W B := by
  have hmul1 : (L - r - 1) * size W B ≤ L * size W B :=
    Nat.mul_le_mul_right _ (by omega)
  have hmul2 : r * size W B ≤ L * size W B :=
    Nat.mul_le_mul_right _ (by omega)
  refine ⟨?_, ?_, ?_⟩
  · intro hpos
    unfold uncompressedRowOffset
    rw [if_pos hpos, Nat.mod_eq_of_lt (by omega)]
    have h : L - r - 1 = L - 1 - r := by omega
    rw [h]
  · intro hneg
    unfold uncompressedRowOffset
    rw [if_neg (by omega), Nat.mod_eq_of_lt (by omega)]
  · intro file hlen
    unfold uncompressedRowBytes
    simp only [List.length_take, List.length_drop]
    omega

/-- Witness for C8: a bottom-up 2-row, 3-pixel-wide, 24-bit image with
pixel data at offset 54 reads display row 0 at offset 54 + 12 = 66 and
takes 12 bytes. -/
theorem uncompressed_row_access_witness :
    uncompressedRowOffset 54 2 2 (size 3 24) 0 = 54 + (2 - 1 - 0) * size 3 24 ∧
    (uncompressedRowBytes (List.replicate 80 0) 54 2 2 (size 3 24) 0).length =
      size 3 24 := by
  have h := uncompressed_row_access 54 2 2 3 24 0 (by decide) (by decide)
  exact ⟨h.1 (by decide), h.2.2 (List.replicate 80 0) (by decide)⟩

set_option linter.unusedVariables false in
/-- C9 (confirmed): for the supported bit depths and positive widths, the
stride `((width * bitsPerPixel + 31) & ~31) / 8` computed at line 474
equals `ceil(width * bitsPerPixel / 32) * 4`, as long as the 32-bit sum
does not wrap.  The bit-depth and width hypotheses restate the claim's
quantification; the identity holds for any values meeting the wrap bound. -/
theorem row_stride_is_padded_ceil (W B : Nat)
    (hB : B = 1 ∨ B = 4 ∨ B = 8 ∨ B = 16 ∨ B = 24 ∨ B = 32) (hW : 0 < W)
    (hov : W * B + 31 < 4294967296) :
    size W B = (W * B) ⌈/⌉ 32 * 4 := by
  unfold size
  rw [Nat.mod_eq_of_lt hov, and_mask_32 _ hov, Nat.ceilDiv_eq_add_pred_div]
  have h32 : (W * B + 31) / 32 * 32 = (W * B + 31) / 32 * 4 * 8 := by
    rw [Nat.mul_assoc]
  rw [h32, Nat.mul_div_cancel _ (by norm_num)]
  have h31 : W * B + 32 - 1 = W * B + 31 := by omega
  rw [h31]

/-- Witness for C9: a 3-pixel-wide 24-bit row has stride
ceil(72 / 32) * 4 = 12 bytes. -/
theorem row_stride_is_padded_ceil_witness :
    size 3 24 = 72 ⌈/⌉ 32 * 4 ∧ size 3 24 = 12 := by
  have h := row_stride_is_padded_ceil 3 24 (by tauto) (by decide) (by decide)
  exact ⟨by simpa using h, by decide⟩

/-- C10 (confirmed): every iteration of either decompression loop strictly
increases the compressed cursor i (even the iterations that break out), so
the condition i < compr_size eventually fails: with fuel compr_size + 1 the
loops never hit the fuel bound, i.e. the C while loops terminate on every
finite input. -/
theorem rle_decode_loops_terminate :
    (∀ (c : List Nat) (w u : Nat) (s : RLEState),
       s.i < (rle8Step c w u s).2.i ∧ s.i < (rle4Step c w u s).2.i) ∧
    (∀ (c : List Nat) (w : Nat) (init : List Nat),
       (rle8Decompress c w init).1 ≠ RLEExit.fuelOut ∧
       (rle4Decompress c w init).1 ≠ RLEExit.fuelOut) := by
  constructor
  · intro c w u s
    exact ⟨rle8Step_i_lt c w u s, rle4Step_i_lt c w u s⟩
  · intro c w init
    constructor
    · unfold rle8Decompress
      exact rle8Loop_ne_fuelOut c w init.length (c.length + 1) _ (by dsimp only; omega)
    · unfold rle4Decompress
      exact rle4Loop_ne_fuelOut c w init.length (c.length + 1) _ (by dsimp only; omega)

end Bmp2Tiff
